import Mathlib

/-!
# microaudio: the class hierarchy table and the buffers it documents

The repository ships `documentation/html/hierarchy.js`, the Doxygen class
hierarchy of the library: a JavaScript array literal whose rows are
`[ name, link, children ]`, with `link` a string or `null` and `children`
either `null` or a nested array of rows of the same shape.

The first part of this file embeds that literal and the small amount of
string handling needed to talk about class names and template arguments.
The second part models `CircularBuffer` and `AudioBuffer`, whose C++
sources are not part of the shipped files, from the written specification.
-/

namespace Microaudio

/-! ## The hierarchy table -/

/-- A row `[ name, link, children ]` of the `hierarchy` array; `null` is `none`. -/
inductive Entry where
  | mk (name : String) (link : Option String) (children : Option (List Entry))

/-- First component of a row. -/
def Entry.name : Entry → String
  | .mk n _ _ => n

/-- Second component of a row: the documentation page, or `null`. -/
def Entry.link : Entry → Option String
  | .mk _ l _ => l

/-- Third component of a row: the derived classes, or `null`. -/
def Entry.children : Entry → Option (List Entry)
  | .mk _ _ c => c

/-- The array literal `var hierarchy = [ ... ];`, row for row. -/
def hierarchy : List Entry :=
  [ .mk "AudioBuffer< T, CHANNEL_NUM, BUFFER_LEN >" (some "class_audio_buffer.html") none,
    .mk "AudioBuffer< float, 2, AUDIO_DRIVER_BUFFER_SIZE >" (some "class_audio_buffer.html") none,
    .mk "AudioDriver" (some "class_audio_driver.html") none,
    .mk "AudioModule< CHANNEL_NUM >" (some "class_audio_module.html") none,
    .mk "AudioParameter< T >" (some "class_audio_parameter.html") none,
    .mk "AudioProcessable" (some "class_audio_processable.html") (some
      [ .mk "AudioProcessableDummy" (some "class_audio_processable_dummy.html") none,
        .mk "AudioProcessor" (some "class_audio_processor.html") none ]),
    .mk "CircularBuffer< T, BufferSize, OverflowPolicy >" (some "class_circular_buffer.html") none,
    .mk "CircularBufferType::Discard" (some "struct_circular_buffer_type_1_1_discard.html") none,
    .mk "std::iterator" none (some
      [ .mk "ConstCircularBufferIterator< CircularBuffer >" (some "class_const_circular_buffer_iterator.html") none ]),
    .mk "AudioMath::LookupTable< SIZE >" (some "class_audio_math_1_1_lookup_table.html") none,
    .mk "CircularBufferType::Overwrite" (some "struct_circular_buffer_type_1_1_overwrite.html") none ]

/-- Derived classes of a row (`null` children read as no rows). -/
def Entry.derived (e : Entry) : List Entry := e.children.getD []

/-! Every row of the table at any nesting depth, in document order. -/
mutual
def Entry.flatten : Entry → List Entry
  | .mk n l c => .mk n l c :: (match c with
      | none => []
      | some cs => flattenList cs)
def flattenList : List Entry → List Entry
  | [] => []
  | e :: es => e.flatten ++ flattenList es
end

/-- Remove leading and trailing blanks. -/
def trimSpaces (cs : List Char) : List Char :=
  ((cs.dropWhile (· == ' ')).reverse.dropWhile (· == ' ')).reverse

/-- The text of a name before its template argument list, i.e. before the first `<`. -/
def beforeTemplate (name : String) : String :=
  String.mk (name.toList.takeWhile (· != '<'))

/-- Split at commas; `acc` holds the current piece reversed. -/
def splitComma : List Char → List Char → List (List Char)
  | acc, [] => [acc.reverse]
  | acc, c :: cs => if c == ',' then acc.reverse :: splitComma [] cs else splitComma (c :: acc) cs

/-- The template arguments of a name: the comma separated pieces between the first
`<` and the last `>`, blanks trimmed; empty when the name has no `<`. -/
def templateParams (name : String) : List String :=
  match name.toList.dropWhile (· != '<') with
  | [] => []
  | _ :: rest =>
    (splitComma [] ((rest.reverse.dropWhile (· != '>')).drop 1).reverse).map
      (fun p => String.mk (trimSpaces p))

/-- The text after the last `::`; `acc` holds the current piece reversed. -/
def dropScope : List Char → List Char → List Char
  | acc, [] => acc.reverse
  | acc, [c] => (c :: acc).reverse
  | acc, c :: d :: cs =>
    if c == ':' && d == ':' then dropScope [] cs else dropScope (c :: acc) (d :: cs)

/-- Class name without namespace prefix and without template arguments. -/
def className (name : String) : String :=
  String.mk (trimSpaces (dropScope [] (beforeTemplate name).toList))

/-- Remove every blank of a component name, e.g. `Audio Buffer` becomes `AudioBuffer`. -/
def removeSpaces (s : String) : String :=
  String.mk (s.toList.filter (· != ' '))

/-- The eight components named in the system overview of the specification. -/
def specComponents : List String :=
  [ "Lookup Table", "Circular Buffer", "Audio Buffer", "Audio Parameter",
    "Audio Processable", "Audio Module", "Audio Processor", "Audio Driver" ]

/-- Rows at any depth whose link is not `null`. -/
def linkedEntries : List Entry :=
  (flattenList hierarchy).filter (fun e => e.link.isSome)

/-! ## Circular buffer -/

/-- Modelled from the spec: the overflow policy of `CircularBuffer` (the table only lists
the two policy structs `CircularBufferType::Discard` and `CircularBufferType::Overwrite`;
their C++ source is not among the shipped files). -/
inductive CircularBufferType where
  | Discard
  | Overwrite
  deriving DecidableEq

/-- Modelled from the spec: the state of `CircularBuffer< T, BufferSize, OverflowPolicy >`,
whose C++ source is not among the shipped files: a fixed storage of `capacity` elements,
a read index, a write index and the count of valid elements. -/
structure CircularBuffer (α : Type) where
  capacity : Nat
  policy : CircularBufferType
  storage : List α
  readIndex : Nat
  writeIndex : Nat
  count : Nat
  deriving DecidableEq

namespace CircularBuffer

variable {α : Type}

/-- Modelled from the spec: construction of `CircularBuffer`; capacity 0 is rejected,
otherwise the storage is default-valued and the buffer is empty. -/
def create [Inhabited α] (capacity : Nat) (policy : CircularBufferType) :
    Option (CircularBuffer α) :=
  if capacity = 0 then none
  else some
    { capacity := capacity, policy := policy, storage := List.replicate capacity default,
      readIndex := 0, writeIndex := 0, count := 0 }

/-- Modelled from the spec: `size()` of `CircularBuffer`, the count of valid elements. -/
def size (b : CircularBuffer α) : Nat := b.count

/-- Modelled from the spec: `isFull()` of `CircularBuffer`. -/
def isFull (b : CircularBuffer α) : Bool := b.count == b.capacity

/-- Modelled from the spec: `isEmpty()` of `CircularBuffer`. -/
def isEmpty (b : CircularBuffer α) : Bool := b.count == 0

/-- Modelled from the spec: `push(value) -> bool` of `CircularBuffer`. When full, Discard
rejects the write and leaves the state as it is; Overwrite stores the value at the write
index and advances the read index by one (evicting the oldest element). When not full
the value is stored at the write index and the count grows. Indices wrap modulo the
capacity. -/
def push (b : CircularBuffer α) (v : α) : Bool × CircularBuffer α :=
  if b.isFull then
    match b.policy with
    | .Discard => (false, b)
    | .Overwrite =>
      (true, { b with
        storage := b.storage.set b.writeIndex v
        writeIndex := (b.writeIndex + 1) % b.capacity
        readIndex := (b.readIndex + 1) % b.capacity })
  else
    (true, { b with
      storage := b.storage.set b.writeIndex v
      writeIndex := (b.writeIndex + 1) % b.capacity
      count := b.count + 1 })

/-- Modelled from the spec: `pop() -> optional<T>` of `CircularBuffer`: the oldest element
is returned and removed when the count is positive, otherwise no value is returned. -/
def pop (b : CircularBuffer α) : Option α × CircularBuffer α :=
  if b.count = 0 then (none, b)
  else (b.storage[b.readIndex]?,
    { b with readIndex := (b.readIndex + 1) % b.capacity, count := b.count - 1 })

/-- Modelled from the spec: `peek(offset) -> optional<T>` of `CircularBuffer`: the element
`offset` places after the oldest one, or no value when `offset` is not below the count. -/
def peek (b : CircularBuffer α) (offset : Nat) : Option α :=
  if offset ≥ b.count then none
  else b.storage[(b.readIndex + offset) % b.capacity]?

/-- The readable sequence of a buffer, oldest first: what `peek` returns at offsets
`0 .. count - 1`. -/
def contents (b : CircularBuffer α) : List α :=
  (List.range b.count).filterMap b.peek

/-- Push a list of values in order; returns the result of every push and the final state. -/
def pushAll (b : CircularBuffer α) : List α → List Bool × CircularBuffer α
  | [] => ([], b)
  | v :: vs =>
    let r := b.push v
    let rs := pushAll r.2 vs
    (r.1 :: rs.1, rs.2)

/-- Call `pop` a given number of times; returns every result and the final state. -/
def popN (b : CircularBuffer α) : Nat → List (Option α) × CircularBuffer α
  | 0 => ([], b)
  | n + 1 =>
    let r := b.pop
    let rs := popN r.2 n
    (r.1 :: rs.1, rs.2)


/-- The data-model invariant of a circular buffer: positive capacity, storage of exactly
`capacity` cells, indices below the capacity, the write index `count` places after the
read index modulo the capacity, and `count ≤ capacity`. -/
structure WF (b : CircularBuffer α) : Prop where
  capacity_pos : 0 < b.capacity
  storage_length : b.storage.length = b.capacity
  read_lt : b.readIndex < b.capacity
  write_eq : b.writeIndex = (b.readIndex + b.count) % b.capacity
  count_le : b.count ≤ b.capacity

/-- Abstraction relation: the well-formed buffer `b` holds exactly the list `l`, oldest
first, in the cells starting at the read index. -/
def Holds (b : CircularBuffer α) (l : List α) : Prop :=
  b.WF ∧ l.length = b.count ∧
    ∀ k, k < b.count → b.storage[(b.readIndex + k) % b.capacity]? = l[k]?

end CircularBuffer

/-! ## Audio buffer -/

/-- Modelled from the spec: the error taxonomy entry used by `AudioBuffer`. -/
inductive AudioError where
  | OutOfRange
  deriving DecidableEq

/-- Modelled from the spec: the two supported ways to implement a channel store of
`AudioBuffer`, a ring buffer in overwrite mode or a plain fixed array. -/
inductive StoreKind where
  | ring
  | plain
  deriving DecidableEq

/-- Modelled from the spec: one channel store of `AudioBuffer< T, CHANNEL_NUM, BUFFER_LEN >`,
whose C++ source is not among the shipped files. -/
inductive ChannelStore (α : Type) where
  | ring (buffer : CircularBuffer α)
  | plain (samples : List α)
  deriving DecidableEq

namespace ChannelStore

variable {α : Type}

/-- Modelled from the spec: writing one block into a channel store. A ring store receives
the samples one push at a time; a plain store is replaced by the block. -/
def write (s : ChannelStore α) (block : List α) : ChannelStore α :=
  match s with
  | .ring buffer => .ring (buffer.pushAll block).2
  | .plain _ => .plain block

/-- Modelled from the spec: the view of the samples held by a channel store. -/
def read (s : ChannelStore α) : List α :=
  match s with
  | .ring buffer => buffer.contents
  | .plain samples => samples

/-- A channel store fits a buffer of the given block length: a ring store has that capacity,
the Overwrite policy and a consistent state; a plain store needs nothing. -/
def Fits (blockLength : Nat) : ChannelStore α → Prop
  | .ring buffer =>
    buffer.capacity = blockLength ∧ buffer.policy = .Overwrite ∧ ∃ l, buffer.Holds l
  | .plain _ => True

end ChannelStore

/-- Modelled from the spec: the state of `AudioBuffer< T, CHANNEL_NUM, BUFFER_LEN >`:
`channelCount` independent channel stores of `blockLength` samples each. -/
structure AudioBuffer (α : Type) where
  channelCount : Nat
  blockLength : Nat
  channels : List (ChannelStore α)
  deriving DecidableEq

namespace AudioBuffer

variable {α : Type}

/-- Modelled from the spec: construction of `AudioBuffer` with every channel store of the
chosen kind, default-valued. A ring-backed buffer of block length 0 is rejected because
its stores are. -/
def create [Inhabited α] (kind : StoreKind) (channelCount blockLength : Nat) :
    Option (AudioBuffer α) :=
  match kind with
  | .ring =>
    (CircularBuffer.create blockLength .Overwrite).map fun buffer =>
      { channelCount := channelCount, blockLength := blockLength,
        channels := List.replicate channelCount (.ring buffer) }
  | .plain =>
    some
      { channelCount := channelCount, blockLength := blockLength,
        channels := List.replicate channelCount (.plain (List.replicate blockLength default)) }

/-- Modelled from the spec: `writeBlock(channel, samples)` of `AudioBuffer`: fails with
`OutOfRange` when the channel index is not below the channel count, otherwise writes the
first `blockLength` samples into that channel store. -/
def writeBlock (b : AudioBuffer α) (channel : Nat) (samples : List α) :
    Except AudioError (AudioBuffer α) :=
  if channel ≥ b.channelCount then .error .OutOfRange
  else
    match b.channels[channel]? with
    | none => .error .OutOfRange
    | some store =>
      .ok { b with channels := b.channels.set channel (store.write (samples.take b.blockLength)) }

/-- Modelled from the spec: `readBlock(channel)` of `AudioBuffer`: the view of the samples of
that channel store, `OutOfRange` for an invalid channel index. -/
def readBlock (b : AudioBuffer α) (channel : Nat) : Except AudioError (List α) :=
  if channel ≥ b.channelCount then .error .OutOfRange
  else
    match b.channels[channel]? with
    | none => .error .OutOfRange
    | some store => .ok store.read

/-- A well-formed audio buffer: it has `channelCount` stores, each fitting `blockLength`. -/
structure Valid (b : AudioBuffer α) : Prop where
  channels_length : b.channels.length = b.channelCount
  stores : ∀ s ∈ b.channels, s.Fits b.blockLength

end AudioBuffer

/-! ## Facts about the hierarchy table -/

/-- C5: the `AudioProcessable` row is unique, its derived classes are exactly
`AudioProcessableDummy` and `AudioProcessor` (in that order), neither of the two is a
root row, and neither is listed under any row other than `AudioProcessable`. -/
theorem audioProcessable_derived :
    ((flattenList hierarchy).filter (fun e => e.name == "AudioProcessable")).map
        (fun e => e.children.map (fun cs => cs.map Entry.name))
      = [some ["AudioProcessableDummy", "AudioProcessor"]]
    ∧ (∀ e ∈ hierarchy, e.name ≠ "AudioProcessableDummy" ∧ e.name ≠ "AudioProcessor")
    ∧ (∀ e ∈ flattenList hierarchy, e.name ≠ "AudioProcessable" →
        ∀ d ∈ e.derived, d.name ≠ "AudioProcessableDummy" ∧ d.name ≠ "AudioProcessor") := by
  refine ⟨by decide, by decide, by decide⟩

/-- C6: the rows whose name begins with `CircularBufferType::` are exactly two,
`CircularBufferType::Discard` and `CircularBufferType::Overwrite`, and the single
`CircularBuffer` row has the template parameters `T`, `BufferSize` and `OverflowPolicy`,
the last one being the overflow policy. -/
theorem circularBufferType_entries :
    ((flattenList hierarchy).filter
        (fun e => "CircularBufferType::".toList.isPrefixOf e.name.toList)).map Entry.name
      = ["CircularBufferType::Discard", "CircularBufferType::Overwrite"]
    ∧ ((flattenList hierarchy).filter (fun e => className e.name == "CircularBuffer")).map
        (fun e => templateParams e.name) = [["T", "BufferSize", "OverflowPolicy"]] := by
  refine ⟨by decide, by decide⟩

/-- C7: each of the eight components of the specification has a row, at root or nested
level, whose class name (namespace prefix and template arguments dropped) is the
component name with its blanks removed, and that row has a link that is not `null`. -/
theorem component_has_linked_entry (c : String) (hc : c ∈ specComponents) :
    ∃ e ∈ flattenList hierarchy, className e.name = removeSpaces c ∧ e.link.isSome = true := by
  revert c
  decide

/-- Instance of the preceding theorem at the one component that is a nested row. -/
theorem component_has_linked_entry_witness :
    "Audio Processor" ∈ specComponents ∧
      ∃ e ∈ flattenList hierarchy,
        className e.name = removeSpaces "Audio Processor" ∧ e.link.isSome = true :=
  ⟨by decide, component_has_linked_entry "Audio Processor" (by decide)⟩

/-- C8: every row listed as a derived class of a root row has `null` children, so the
table nests at most one level and no class in it has a grandparent. -/
theorem derived_have_no_children (e : Entry) (he : e ∈ hierarchy) (d : Entry)
    (hd : d ∈ e.derived) : d.children = none := by
  have h : ∀ e ∈ hierarchy, ∀ d ∈ e.derived, d.children.isNone = true := by decide
  simpa using h e he d hd

/-- Instance of the preceding theorem at `AudioProcessor`, derived from `AudioProcessable`. -/
theorem derived_have_no_children_witness :
    (Entry.mk "AudioProcessor" (some "class_audio_processor.html") none).children = none :=
  derived_have_no_children
    (.mk "AudioProcessable" (some "class_audio_processable.html") (some
      [ .mk "AudioProcessableDummy" (some "class_audio_processable_dummy.html") none,
        .mk "AudioProcessor" (some "class_audio_processor.html") none ]))
    (by simp [hierarchy])
    (.mk "AudioProcessor" (some "class_audio_processor.html") none)
    (by simp [Entry.derived, Entry.children])

/-- C9: number of template parameters per generic row: `CircularBuffer` 3, both
`AudioBuffer` rows 3, `AudioModule`, `AudioParameter` and `LookupTable` 1 each. -/
theorem template_param_counts :
    ((flattenList hierarchy).filter (fun e => className e.name == "CircularBuffer")).map
        (fun e => (templateParams e.name).length) = [3]
    ∧ ((flattenList hierarchy).filter (fun e => className e.name == "AudioBuffer")).map
        (fun e => (e.name, (templateParams e.name).length))
        = [ ("AudioBuffer< T, CHANNEL_NUM, BUFFER_LEN >", 3),
            ("AudioBuffer< float, 2, AUDIO_DRIVER_BUFFER_SIZE >", 3) ]
    ∧ ((flattenList hierarchy).filter (fun e => className e.name == "AudioModule")).map
        (fun e => (templateParams e.name).length) = [1]
    ∧ ((flattenList hierarchy).filter (fun e => className e.name == "AudioParameter")).map
        (fun e => (templateParams e.name).length) = [1]
    ∧ ((flattenList hierarchy).filter (fun e => className e.name == "LookupTable")).map
        (fun e => (templateParams e.name).length) = [1] := by
  refine ⟨by decide, by decide, by decide, by decide, by decide⟩

/-- C10: among the rows with a link, two rows have the same link exactly when their
names agree before the template argument list; two rows with different names share a
link only if they are the two `AudioBuffer` rows (which do share one); and
`std::iterator` is the only row whose link is `null`. -/
theorem link_iff_class_name :
    (∀ a ∈ linkedEntries, ∀ b ∈ linkedEntries,
        (a.link = b.link ↔ beforeTemplate a.name = beforeTemplate b.name))
    ∧ (∀ a ∈ linkedEntries, ∀ b ∈ linkedEntries, a.name ≠ b.name → a.link = b.link →
        beforeTemplate a.name = "AudioBuffer" ∧ beforeTemplate b.name = "AudioBuffer")
    ∧ (linkedEntries.filter (fun e => beforeTemplate e.name == "AudioBuffer")).map
        (fun e => (e.name, e.link))
        = [ ("AudioBuffer< T, CHANNEL_NUM, BUFFER_LEN >", some "class_audio_buffer.html"),
            ("AudioBuffer< float, 2, AUDIO_DRIVER_BUFFER_SIZE >", some "class_audio_buffer.html") ]
    ∧ ((flattenList hierarchy).filter (fun e => e.link.isNone)).map Entry.name
        = ["std::iterator"] := by
  refine ⟨by decide, by decide, by decide, by decide⟩

/-! ## Circular buffer: one step -/

namespace CircularBuffer

variable {α : Type}

theorem slot_ne {c r k k' : Nat} (hk : k < c) (hk' : k' < c) (hne : k ≠ k') :
    (r + k) % c ≠ (r + k') % c := by
  intro h
  have h1 : k ≡ k' [MOD c] := Nat.ModEq.add_left_cancel' r h
  have h2 : k % c = k' % c := h1
  rw [Nat.mod_eq_of_lt hk, Nat.mod_eq_of_lt hk'] at h2
  exact hne h2

theorem filterMap_getElem?_range (l : List α) :
    (List.range l.length).filterMap (fun k => l[k]?) = l := by
  induction l using List.reverseRecOn with
  | nil => rfl
  | append_singleton l x ih =>
    rw [List.length_append, List.length_singleton, List.range_succ, List.filterMap_append]
    have h1 : (List.range l.length).filterMap (fun k => (l ++ [x])[k]?)
        = (List.range l.length).filterMap (fun k => l[k]?) := by
      apply List.filterMap_congr
      intro k hk
      exact List.getElem?_append_left (List.mem_range.mp hk)
    rw [h1, ih]
    simp

theorem Holds.contents_eq {b : CircularBuffer α} {l : List α} (h : b.Holds l) :
    b.contents = l := by
  obtain ⟨-, hlen, hk⟩ := h
  have h1 : (List.range b.count).filterMap b.peek
      = (List.range b.count).filterMap (fun k => l[k]?) := by
    apply List.filterMap_congr
    intro k hkr
    have hlt : k < b.count := List.mem_range.mp hkr
    have : ¬ (k ≥ b.count) := by omega
    simp only [peek, this, if_false]
    exact hk k hlt
  rw [contents, h1, ← hlen]
  exact filterMap_getElem?_range l

theorem create_holds [Inhabited α] {capacity : Nat} (hc : 0 < capacity)
    (policy : CircularBufferType) :
    ∃ e : CircularBuffer α, create capacity policy = some e ∧ e.Holds [] ∧
      e.capacity = capacity ∧ e.policy = policy := by
  refine ⟨{ capacity := capacity, policy := policy,
            storage := List.replicate capacity default,
            readIndex := 0, writeIndex := 0, count := 0 }, ?_, ⟨?_, rfl, ?_⟩, rfl, rfl⟩
  · simp [create, Nat.pos_iff_ne_zero.mp hc]
  · exact ⟨hc, List.length_replicate _ _, hc, (Nat.zero_mod _).symm, Nat.zero_le _⟩
  · intro k hk
    exact absurd hk (Nat.not_lt_zero k)

theorem push_holds_of_lt {b : CircularBuffer α} {l : List α} (h : b.Holds l)
    (hlt : b.count < b.capacity) (v : α) :
    (b.push v).1 = true ∧ (b.push v).2.Holds (l ++ [v]) ∧
      (b.push v).2.capacity = b.capacity ∧ (b.push v).2.policy = b.policy := by
  obtain ⟨hwf, hlen, hk⟩ := h
  have hnf : b.isFull = false := by
    simp only [isFull, beq_eq_false_iff_ne]
    omega
  simp only [push, hnf]
  refine ⟨rfl, ⟨⟨hwf.capacity_pos, ?_, hwf.read_lt, ?_, ?_⟩, ?_, ?_⟩, rfl, rfl⟩
  · simpa using hwf.storage_length
  · show (b.writeIndex + 1) % b.capacity = (b.readIndex + (b.count + 1)) % b.capacity
    rw [hwf.write_eq, Nat.mod_add_mod, Nat.add_assoc]
  · show b.count + 1 ≤ b.capacity
    omega
  · simp [hlen]
  · intro k hkc
    show (b.storage.set b.writeIndex v)[(b.readIndex + k) % b.capacity]? = (l ++ [v])[k]?
    have hkc' : k < b.count + 1 := hkc
    rcases Nat.lt_or_eq_of_le (Nat.lt_succ_iff.mp hkc') with hlt' | heq
    · have hne : b.writeIndex ≠ (b.readIndex + k) % b.capacity := by
        rw [hwf.write_eq]
        exact slot_ne hlt (by omega) (by omega)
      rw [List.getElem?_set_ne hne, hk k hlt', List.getElem?_append_left (by omega)]
    · subst heq
      rw [← hwf.write_eq, List.getElem?_set_self, ← hlen, List.getElem?_concat_length]
      rw [hwf.storage_length, hwf.write_eq]
      exact Nat.mod_lt _ hwf.capacity_pos

theorem push_holds_of_full {b : CircularBuffer α} {l : List α} (h : b.Holds l)
    (hfull : b.count = b.capacity) (hp : b.policy = .Overwrite) (v : α) :
    (b.push v).1 = true ∧ (b.push v).2.Holds (l.drop 1 ++ [v]) ∧
      (b.push v).2.capacity = b.capacity ∧ (b.push v).2.policy = b.policy := by
  obtain ⟨hwf, hlen, hk⟩ := h
  have hf : b.isFull = true := by simp [isFull, hfull]
  have hpos := hwf.capacity_pos
  have hw : b.writeIndex = b.readIndex := by
    rw [hwf.write_eq, hfull, Nat.add_mod_right, Nat.mod_eq_of_lt hwf.read_lt]
  have hpush : b.push v = (true, { b with
      storage := b.storage.set b.writeIndex v
      writeIndex := (b.writeIndex + 1) % b.capacity
      readIndex := (b.readIndex + 1) % b.capacity }) := by
    simp [push, hf, hp]
  rw [hpush]
  refine ⟨rfl, ⟨⟨hpos, ?_, Nat.mod_lt _ hpos, ?_, hwf.count_le⟩, ?_, ?_⟩, rfl, rfl⟩
  · simpa using hwf.storage_length
  · show (b.writeIndex + 1) % b.capacity
      = ((b.readIndex + 1) % b.capacity + b.count) % b.capacity
    rw [hw, hfull, Nat.add_mod_right, Nat.mod_mod]
  · show (l.drop 1 ++ [v]).length = b.count
    simp [hlen]
    omega
  · intro k hkc
    show (b.storage.set b.writeIndex v)[((b.readIndex + 1) % b.capacity + k) % b.capacity]?
      = (l.drop 1 ++ [v])[k]?
    have hkc' : k < b.count := hkc
    rw [Nat.mod_add_mod]
    by_cases hlast : k + 1 < b.capacity
    · have hne : b.writeIndex ≠ (b.readIndex + 1 + k) % b.capacity := by
        rw [hw]
        have := @slot_ne b.capacity b.readIndex 0 (1 + k) hpos (by omega) (by omega)
        rw [Nat.add_zero, Nat.mod_eq_of_lt hwf.read_lt, ← Nat.add_assoc] at this
        exact this
      rw [List.getElem?_set_ne hne, List.getElem?_append_left (by simp; omega),
        List.getElem?_drop, Nat.add_assoc]
      exact hk (1 + k) (by omega)
    · have hk1 : k + 1 = b.capacity := by omega
      have hidx : (b.readIndex + 1 + k) % b.capacity = b.writeIndex := by
        rw [hw, Nat.add_assoc, Nat.add_comm 1 k, hk1, Nat.add_mod_right,
          Nat.mod_eq_of_lt hwf.read_lt]
      have hdl : (l.drop 1).length = k := by simp; omega
      rw [hidx, List.getElem?_set_self (by rw [hwf.storage_length, hw]; exact hwf.read_lt),
        ← hdl, List.getElem?_concat_length]

theorem pop_holds {b : CircularBuffer α} {x : α} {l : List α} (h : b.Holds (x :: l)) :
    b.pop.1 = some x ∧ b.pop.2.Holds l := by
  obtain ⟨hwf, hlen, hk⟩ := h
  have hlen' : l.length + 1 = b.count := by simpa using hlen
  have hpos := hwf.capacity_pos
  have hne : ¬ (b.count = 0) := by omega
  simp only [pop, hne, if_false]
  refine ⟨?_, ⟨hpos, hwf.storage_length, Nat.mod_lt _ hpos, ?_, ?_⟩, ?_, ?_⟩
  · have := hk 0 (by omega)
    rw [Nat.add_zero, Nat.mod_eq_of_lt hwf.read_lt] at this
    simpa using this
  · show b.writeIndex = ((b.readIndex + 1) % b.capacity + (b.count - 1)) % b.capacity
    rw [hwf.write_eq, Nat.mod_add_mod]
    congr 1
    omega
  · show b.count - 1 ≤ b.capacity
    have := hwf.count_le
    omega
  · show l.length = b.count - 1
    omega
  · intro k hkc
    show b.storage[((b.readIndex + 1) % b.capacity + k) % b.capacity]? = l[k]?
    have hkc' : k < b.count - 1 := hkc
    rw [Nat.mod_add_mod, Nat.add_assoc, hk (1 + k) (by omega), Nat.add_comm 1 k]
    simp

theorem push_overwrite_fst (b : CircularBuffer α) (hp : b.policy = .Overwrite) (v : α) :
    (b.push v).1 = true := by
  unfold push
  split
  · rw [hp]
  · rfl

theorem push_policy (b : CircularBuffer α) (v : α) : (b.push v).2.policy = b.policy := by
  unfold push
  split
  · split <;> rfl
  · rfl

theorem push_capacity (b : CircularBuffer α) (v : α) :
    (b.push v).2.capacity = b.capacity := by
  unfold push
  split
  · split <;> rfl
  · rfl

theorem push_discard_of_full (b : CircularBuffer α) (hp : b.policy = .Discard)
    (hfull : b.count = b.capacity) (v : α) : b.push v = (false, b) := by
  have hf : b.isFull = true := by simp [isFull, hfull]
  simp [push, hf, hp]

theorem pushAll_append (b : CircularBuffer α) (xs ys : List α) :
    b.pushAll (xs ++ ys)
      = ((b.pushAll xs).1 ++ ((b.pushAll xs).2.pushAll ys).1,
          ((b.pushAll xs).2.pushAll ys).2) := by
  induction xs generalizing b with
  | nil => rfl
  | cons x xs ih => simp [pushAll, ih]

theorem pushAll_policy (b : CircularBuffer α) (xs : List α) :
    (b.pushAll xs).2.policy = b.policy ∧ (b.pushAll xs).2.capacity = b.capacity := by
  induction xs generalizing b with
  | nil => exact ⟨rfl, rfl⟩
  | cons x xs ih =>
    have := ih (b.push x).2
    simp only [pushAll]
    rw [this.1, this.2, push_policy, push_capacity]
    exact ⟨rfl, rfl⟩

theorem pushAll_overwrite_fst (b : CircularBuffer α) (hp : b.policy = .Overwrite)
    (xs : List α) : (b.pushAll xs).1 = List.replicate xs.length true := by
  induction xs generalizing b with
  | nil => rfl
  | cons x xs ih =>
    simp only [pushAll, List.length_cons, List.replicate_succ]
    rw [push_overwrite_fst b hp, ih _ ((push_policy b x).trans hp)]

theorem pushAll_holds_of_le {b : CircularBuffer α} {l : List α} (h : b.Holds l)
    (xs : List α) (hle : l.length + xs.length ≤ b.capacity) :
    (b.pushAll xs).1 = List.replicate xs.length true ∧ (b.pushAll xs).2.Holds (l ++ xs) := by
  induction xs generalizing b l with
  | nil => simpa [pushAll] using h
  | cons x xs ih =>
    have hlen : l.length = b.count := h.2.1
    simp only [List.length_cons] at hle
    obtain ⟨h1, h2, h3, -⟩ := push_holds_of_lt h (by omega) x
    have := ih h2 (by rw [h3]; simp; omega)
    simp only [pushAll, List.length_cons, List.replicate_succ]
    rw [h1, this.1]
    refine ⟨rfl, ?_⟩
    simpa using this.2

theorem pushAll_holds_overwrite {b : CircularBuffer α} {l : List α} (h : b.Holds l)
    (hp : b.policy = .Overwrite) (xs : List α) :
    (b.pushAll xs).2.Holds ((l ++ xs).drop ((l ++ xs).length - b.capacity)) := by
  induction xs using List.reverseRecOn with
  | nil =>
    have hle : l.length ≤ b.capacity := by rw [h.2.1]; exact h.1.count_le
    have h0 : l.length - b.capacity = 0 := by omega
    simpa [pushAll, h0] using h
  | append_singleton xs x ih =>
    obtain ⟨hpol, hcap⟩ := pushAll_policy b xs
    have hcount : ((l ++ xs).drop ((l ++ xs).length - b.capacity)).length
        = (b.pushAll xs).2.count := ih.2.1
    rw [List.length_drop] at hcount
    rw [pushAll_append]
    show ((b.pushAll xs).2.push x).2.Holds _
    rw [← List.append_assoc]
    by_cases hlt : (l ++ xs).length < b.capacity
    · have h0 : (l ++ xs).length - b.capacity = 0 := by omega
      have h1 : (l ++ xs ++ [x]).length - b.capacity = 0 := by
        rw [List.length_append, List.length_singleton]; omega
      rw [h0, List.drop_zero] at ih
      rw [h1, List.drop_zero]
      exact (push_holds_of_lt ih (by rw [hcap]; omega) x).2.1
    · have hfull : (b.pushAll xs).2.count = (b.pushAll xs).2.capacity := by
        rw [hcap]; omega
      have := (push_holds_of_full ih hfull (hpol.trans hp) x).2.1
      rw [List.drop_drop] at this
      have hle : (l ++ xs ++ [x]).length - b.capacity ≤ (l ++ xs).length := by
        rw [List.length_append (l ++ xs), List.length_singleton]
        have := h.1.capacity_pos
        omega
      rw [List.drop_append_of_le_length hle]
      have he : (l ++ xs ++ [x]).length - b.capacity = (l ++ xs).length - b.capacity + 1 := by
        rw [List.length_append (l ++ xs), List.length_singleton]
        omega
      rw [he]
      exact this

theorem popN_holds {b : CircularBuffer α} {l : List α} (h : b.Holds l) :
    (b.popN l.length).1 = l.map some ∧ (b.popN l.length).2.Holds [] := by
  induction l generalizing b with
  | nil => exact ⟨rfl, h⟩
  | cons x l ih =>
    obtain ⟨h1, h2⟩ := pop_holds h
    have := ih h2
    simp only [popN, List.length_cons, List.map_cons]
    rw [h1, this.1]
    exact ⟨rfl, this.2⟩

theorem holds_nil_of_empty {b : CircularBuffer α} (hwf : b.WF) (h0 : b.count = 0) :
    b.Holds [] := by
  refine ⟨hwf, h0.symm, ?_⟩
  intro k hk
  rw [h0] at hk
  exact absurd hk (Nat.not_lt_zero k)

/-! ## Circular buffer: the claims -/

/-- C1: under the Discard policy, for every buffer state with `count = capacity` and every
value `v`, `push v` returns `false` and returns the very same state, so the stored
elements, their order (the readable sequence) and the count are unchanged. With capacity 4,
pushing 1,2,3,4,5 into the empty buffer succeeds four times, fails the fifth time and
leaves the readable sequence 1,2,3,4. -/
theorem push_discard_full_unchanged :
    (∀ (α : Type) (b : CircularBuffer α) (v : α),
        b.policy = .Discard → b.count = b.capacity →
          (b.push v).1 = false ∧ (b.push v).2 = b ∧
            (b.push v).2.contents = b.contents ∧ (b.push v).2.count = b.count)
    ∧ (create 4 .Discard).map
          (fun e : CircularBuffer Nat =>
            ((e.pushAll [1, 2, 3, 4, 5]).1, (e.pushAll [1, 2, 3, 4, 5]).2.contents))
        = some ([true, true, true, true, false], [1, 2, 3, 4]) := by
  refine ⟨?_, by decide⟩
  intro α b v hp hfull
  rw [push_discard_of_full b hp hfull v]
  exact ⟨rfl, rfl, rfl, rfl⟩

/-- Instance of the preceding theorem at the full capacity-3 Discard buffer holding 7,8,9, pushing 5. -/
theorem push_discard_full_unchanged_witness :
    (⟨3, .Discard, [7, 8, 9], 0, 0, 3⟩ : CircularBuffer Nat).policy = .Discard ∧
    (⟨3, .Discard, [7, 8, 9], 0, 0, 3⟩ : CircularBuffer Nat).count = 3 ∧
    ((⟨3, .Discard, [7, 8, 9], 0, 0, 3⟩ : CircularBuffer Nat).push 5).1 = false ∧
    ((⟨3, .Discard, [7, 8, 9], 0, 0, 3⟩ : CircularBuffer Nat).push 5).2.contents = [7, 8, 9] :=
  ⟨rfl, rfl,
    (push_discard_full_unchanged.1 Nat ⟨3, .Discard, [7, 8, 9], 0, 0, 3⟩ 5 rfl rfl).1,
    ((push_discard_full_unchanged.1 Nat ⟨3, .Discard, [7, 8, 9], 0, 0, 3⟩ 5 rfl rfl).2.2.1).trans
      (by decide)⟩

/-- C2: under the Overwrite policy, for every empty buffer (any well-formed state with
count 0, wherever its read and write indices stand, in particular the one construction
returns for a capacity `≥ 1`) and every list `xs` pushed in order: every push returns
`true`, the count is `min n capacity` and so never exceeds the capacity, and the readable
sequence is exactly the last `min n capacity` elements of `xs` in push order (`n` the
length of `xs`). Every prefix of a push sequence is itself a push sequence, so this covers
each intermediate state. With capacity 4, pushing 1,2,3,4,5 leaves the readable sequence
2,3,4,5. -/
theorem push_overwrite_keeps_latest :
    (∀ (α : Type) (b : CircularBuffer α) (xs : List α),
        b.WF → b.count = 0 → b.policy = .Overwrite →
          (b.pushAll xs).1 = List.replicate xs.length true ∧
          (b.pushAll xs).2.count = min xs.length b.capacity ∧
          (b.pushAll xs).2.count ≤ b.capacity ∧
          (b.pushAll xs).2.contents = xs.drop (xs.length - min xs.length b.capacity) ∧
          (b.pushAll xs).2.WF)
    ∧ (∀ (α : Type) [Inhabited α] (capacity : Nat) (xs : List α), 0 < capacity →
        ∃ e : CircularBuffer α, create capacity .Overwrite = some e ∧
          e.WF ∧ e.count = 0 ∧ e.capacity = capacity ∧ e.policy = .Overwrite ∧
          (e.pushAll xs).1 = List.replicate xs.length true ∧
          (e.pushAll xs).2.count = min xs.length capacity ∧
          (e.pushAll xs).2.count ≤ capacity ∧
          (e.pushAll xs).2.contents = xs.drop (xs.length - min xs.length capacity))
    ∧ (create 4 .Overwrite).map
          (fun e : CircularBuffer Nat => (e.pushAll [1, 2, 3, 4, 5]).2.contents)
        = some [2, 3, 4, 5] := by
  have general : ∀ (α : Type) (b : CircularBuffer α) (xs : List α),
      b.Holds [] → b.policy = .Overwrite →
        (b.pushAll xs).1 = List.replicate xs.length true ∧
        (b.pushAll xs).2.count = min xs.length b.capacity ∧
        (b.pushAll xs).2.count ≤ b.capacity ∧
        (b.pushAll xs).2.contents = xs.drop (xs.length - min xs.length b.capacity) ∧
        (b.pushAll xs).2.WF := by
    intro α b xs hholds hpol
    have h := pushAll_holds_overwrite hholds hpol xs
    rw [List.nil_append] at h
    have hmin : xs.length - min xs.length b.capacity = xs.length - b.capacity := by omega
    have hcount : (b.pushAll xs).2.count = min xs.length b.capacity := by
      rw [← h.2.1, List.length_drop]
      omega
    refine ⟨pushAll_overwrite_fst b hpol xs, hcount, ?_, ?_, h.1⟩
    · rw [hcount]
      exact Nat.min_le_right _ _
    · rw [hmin]
      exact h.contents_eq
  refine ⟨?_, ?_, by decide⟩
  · intro α b xs hwf h0 hpol
    exact general α b xs (holds_nil_of_empty hwf h0) hpol
  · intro α _ capacity xs hc
    obtain ⟨e, he, hholds, hcap, hpol⟩ := create_holds (α := α) hc .Overwrite
    obtain ⟨h1, h2, h3, h4, -⟩ := general α e xs hholds hpol
    rw [hcap] at h2 h3 h4
    exact ⟨e, he, hholds.1, hholds.2.1.symm, hcap, hpol, h1, h2, h3, h4⟩

/-- Instance of the preceding theorem at an emptied capacity-2 buffer whose indices stand
at 1, and the pushes 7,8,9: the readable sequence is 8,9. -/
theorem push_overwrite_keeps_latest_witness :
    (⟨2, .Overwrite, [5, 6], 1, 1, 0⟩ : CircularBuffer Nat).WF ∧
    (⟨2, .Overwrite, [5, 6], 1, 1, 0⟩ : CircularBuffer Nat).count = 0 ∧
    (⟨2, .Overwrite, [5, 6], 1, 1, 0⟩ : CircularBuffer Nat).policy = .Overwrite ∧
    ((⟨2, .Overwrite, [5, 6], 1, 1, 0⟩ : CircularBuffer Nat).pushAll [7, 8, 9]).1
      = [true, true, true] ∧
    ((⟨2, .Overwrite, [5, 6], 1, 1, 0⟩ : CircularBuffer Nat).pushAll [7, 8, 9]).2.count = 2 ∧
    ((⟨2, .Overwrite, [5, 6], 1, 1, 0⟩ : CircularBuffer Nat).pushAll [7, 8, 9]).2.contents
      = [8, 9] :=
  have hwf : (⟨2, .Overwrite, [5, 6], 1, 1, 0⟩ : CircularBuffer Nat).WF :=
    ⟨by decide, rfl, by decide, rfl, by decide⟩
  have h := push_overwrite_keeps_latest.1 Nat ⟨2, .Overwrite, [5, 6], 1, 1, 0⟩ [7, 8, 9]
    hwf rfl rfl
  ⟨hwf, rfl, rfl, h.1, h.2.1, h.2.2.2.1⟩

/-- C3: for every empty buffer (any well-formed state with count 0, wherever its read and
write indices stand, hence of capacity `≥ 1`; in particular the one construction returns),
either overflow policy and every list `xs` of at most `capacity` elements: pushing `xs` in
order (every push succeeds) and then calling `pop` as many times as `xs` is long returns
the elements of `xs` in the same order, and the buffer is empty and well-formed
afterwards, so the round trip can be repeated on it. -/
theorem push_pop_roundtrip :
    (∀ (α : Type) (b : CircularBuffer α) (xs : List α),
        b.WF → b.count = 0 → xs.length ≤ b.capacity →
          (b.pushAll xs).1 = List.replicate xs.length true ∧
          ((b.pushAll xs).2.popN xs.length).1 = xs.map some ∧
          ((b.pushAll xs).2.popN xs.length).2.isEmpty = true ∧
          ((b.pushAll xs).2.popN xs.length).2.count = 0 ∧
          ((b.pushAll xs).2.popN xs.length).2.contents = [] ∧
          ((b.pushAll xs).2.popN xs.length).2.WF)
    ∧ (∀ (α : Type) [Inhabited α] (capacity : Nat) (policy : CircularBufferType)
        (xs : List α), 1 ≤ capacity → xs.length ≤ capacity →
        ∃ e : CircularBuffer α, create capacity policy = some e ∧
          e.WF ∧ e.count = 0 ∧ e.capacity = capacity ∧ e.policy = policy ∧
          (e.pushAll xs).1 = List.replicate xs.length true ∧
          ((e.pushAll xs).2.popN xs.length).1 = xs.map some ∧
          ((e.pushAll xs).2.popN xs.length).2.isEmpty = true ∧
          ((e.pushAll xs).2.popN xs.length).2.contents = []) := by
  have general : ∀ (α : Type) (b : CircularBuffer α) (xs : List α),
      b.Holds [] → xs.length ≤ b.capacity →
        (b.pushAll xs).1 = List.replicate xs.length true ∧
        ((b.pushAll xs).2.popN xs.length).1 = xs.map some ∧
        ((b.pushAll xs).2.popN xs.length).2.isEmpty = true ∧
        ((b.pushAll xs).2.popN xs.length).2.count = 0 ∧
        ((b.pushAll xs).2.popN xs.length).2.contents = [] ∧
        ((b.pushAll xs).2.popN xs.length).2.WF := by
    intro α b xs hholds hn
    obtain ⟨hres, h⟩ := pushAll_holds_of_le hholds xs (by simpa using hn)
    rw [List.nil_append] at h
    obtain ⟨hpop, hempty⟩ := popN_holds h
    have hc : ((b.pushAll xs).2.popN xs.length).2.count = 0 := by
      have := hempty.2.1
      simp only [List.length_nil] at this
      exact this.symm
    refine ⟨hres, hpop, ?_, hc, hempty.contents_eq, hempty.1⟩
    simp [isEmpty, hc]
  refine ⟨?_, ?_⟩
  · intro α b xs hwf h0 hn
    exact general α b xs (holds_nil_of_empty hwf h0) hn
  · intro α _ capacity policy xs hc hn
    obtain ⟨e, he, hholds, hcap, hpol⟩ := create_holds (α := α) hc policy
    obtain ⟨h1, h2, h3, -, h5, -⟩ := general α e xs hholds (by rw [hcap]; exact hn)
    exact ⟨e, he, hholds.1, hholds.2.1.symm, hcap, hpol, h1, h2, h3, h5⟩

/-- Instance of the preceding theorem at an emptied capacity-3 Discard buffer whose
indices stand at 2, so that both the writes and the reads wrap, and the elements 7,8,9. -/
theorem push_pop_roundtrip_witness :
    (⟨3, .Discard, [1, 2, 3], 2, 2, 0⟩ : CircularBuffer Nat).WF ∧
    (⟨3, .Discard, [1, 2, 3], 2, 2, 0⟩ : CircularBuffer Nat).count = 0 ∧
    [7, 8, 9].length ≤ (⟨3, .Discard, [1, 2, 3], 2, 2, 0⟩ : CircularBuffer Nat).capacity ∧
    ((((⟨3, .Discard, [1, 2, 3], 2, 2, 0⟩ : CircularBuffer Nat).pushAll [7, 8, 9]).2.popN
        3).1 = [some 7, some 8, some 9]) ∧
    ((((⟨3, .Discard, [1, 2, 3], 2, 2, 0⟩ : CircularBuffer Nat).pushAll [7, 8, 9]).2.popN
        3).2.isEmpty = true) :=
  have hwf : (⟨3, .Discard, [1, 2, 3], 2, 2, 0⟩ : CircularBuffer Nat).WF :=
    ⟨by decide, rfl, by decide, rfl, by decide⟩
  have h := push_pop_roundtrip.1 Nat ⟨3, .Discard, [1, 2, 3], 2, 2, 0⟩ [7, 8, 9]
    hwf rfl (by decide)
  ⟨hwf, rfl, by decide, h.2.1, h.2.2.1⟩

end CircularBuffer

/-! ## Audio buffer -/

namespace ChannelStore

variable {α : Type}

theorem read_write {n : Nat} {s : ChannelStore α} (hf : s.Fits n) (block : List α)
    (hlen : block.length = n) : (s.write block).read = block ∧ (s.write block).Fits n := by
  cases s with
  | plain samples => exact ⟨rfl, trivial⟩
  | ring buffer =>
    obtain ⟨hcap, hpol, l, hl⟩ := hf
    have h := CircularBuffer.pushAll_holds_overwrite hl hpol block
    have hd : (l ++ block).length - buffer.capacity = l.length := by
      rw [List.length_append, hcap, hlen]
      omega
    rw [hd, List.drop_left] at h
    obtain ⟨hpol2, hcap2⟩ := CircularBuffer.pushAll_policy buffer block
    exact ⟨h.contents_eq, hcap2.trans hcap, hpol2.trans hpol, block, h⟩

end ChannelStore

namespace AudioBuffer

variable {α : Type}

theorem create_valid [Inhabited α] (kind : StoreKind) (channelCount blockLength : Nat)
    (hb : 0 < blockLength) :
    ∃ b : AudioBuffer α, create kind channelCount blockLength = some b ∧ b.Valid ∧
      b.channelCount = channelCount ∧ b.blockLength = blockLength := by
  cases kind with
  | plain =>
    refine ⟨_, rfl, ⟨List.length_replicate _ _, ?_⟩, rfl, rfl⟩
    intro s hs
    rw [List.eq_of_mem_replicate hs]
    trivial
  | ring =>
    obtain ⟨e, he, hholds, hcap, hpol⟩ :=
      CircularBuffer.create_holds (α := α) hb .Overwrite
    refine ⟨{ channelCount := channelCount, blockLength := blockLength,
              channels := List.replicate channelCount (.ring e) }, ?_,
            ⟨List.length_replicate _ _, ?_⟩, rfl, rfl⟩
    · simp [create, he]
    · intro s hs
      rw [List.eq_of_mem_replicate hs]
      exact ⟨hcap, hpol, [], hholds⟩

theorem writeBlock_spec {b : AudioBuffer α} (hv : b.Valid) {i : Nat}
    (hi : i < b.channelCount) (samples : List α) (hs : samples.length = b.blockLength) :
    ∃ b2 : AudioBuffer α, b.writeBlock i samples = .ok b2 ∧ b2.Valid ∧
      b2.channelCount = b.channelCount ∧ b2.blockLength = b.blockLength ∧
      b2.readBlock i = .ok samples ∧
      ∀ j, j ≠ i → b2.readBlock j = b.readBlock j := by
  have hil : i < b.channels.length := by rw [hv.channels_length]; exact hi
  have hget : b.channels[i]? = some b.channels[i] := List.getElem?_eq_getElem hil
  have hnot : ¬ (i ≥ b.channelCount) := by omega
  have htake : samples.take b.blockLength = samples := by
    rw [← hs]; exact List.take_length samples
  have hfit := hv.stores _ (List.getElem_mem hil)
  obtain ⟨hread, hfit2⟩ := ChannelStore.read_write hfit samples hs
  refine ⟨{ b with channels := b.channels.set i (b.channels[i].write samples) }, ?_,
    ⟨?_, ?_⟩, rfl, rfl, ?_, ?_⟩
  · simp only [writeBlock, hnot, if_false, hget, htake]
  · simpa using hv.channels_length
  · intro s hs2
    rcases List.mem_or_eq_of_mem_set hs2 with h | h
    · exact hv.stores s h
    · rw [h]; exact hfit2
  · simp only [readBlock, hnot, if_false]
    rw [List.getElem?_set_self hil]
    exact congrArg Except.ok hread
  · intro j hj
    simp only [readBlock]
    rw [List.getElem?_set_ne (Ne.symm hj)]

/-- C4: for every well-formed audio buffer (ring-backed or plain stores), valid channel
indices `i ≠ j` and every block of `blockLength` samples, `writeBlock i samples` succeeds,
leaves `readBlock j` as it was and makes `readBlock i` equal to `samples`. With 2 channels
and block length 3, for either kind of store, after writing [0.1,0.2,0.3] to channel 0 and
[-0.1,-0.2,-0.3] to channel 1, `readBlock 0` is still [0.1,0.2,0.3] (and `readBlock 1` is
the second block). Samples are stored and returned, never computed with, so the sample
type is arbitrary; the scenario uses exact decimals. -/
theorem writeBlock_channel_independent :
    (∀ (α : Type) (b : AudioBuffer α) (i j : Nat) (samples : List α),
        b.Valid → i < b.channelCount → j < b.channelCount → i ≠ j →
        samples.length = b.blockLength →
          ∃ b2 : AudioBuffer α, b.writeBlock i samples = .ok b2 ∧
            b2.readBlock j = b.readBlock j ∧ b2.readBlock i = .ok samples)
    ∧ (∀ kind : StoreKind,
        ∃ b0 b1 b2 : AudioBuffer ℚ, create kind 2 3 = some b0 ∧
          b0.writeBlock 0 [0.1, 0.2, 0.3] = .ok b1 ∧
          b1.writeBlock 1 [-0.1, -0.2, -0.3] = .ok b2 ∧
          b1.readBlock 0 = .ok [0.1, 0.2, 0.3] ∧
          b2.readBlock 0 = .ok [0.1, 0.2, 0.3] ∧
          b2.readBlock 1 = .ok [-0.1, -0.2, -0.3]) := by
  constructor
  · intro α b i j samples hv hi _ hij hs
    obtain ⟨b2, hw, -, -, -, hri, hrj⟩ := writeBlock_spec hv hi samples hs
    exact ⟨b2, hw, hrj j (Ne.symm hij), hri⟩
  · intro kind
    obtain ⟨b0, hb0, hv0, hc0, hl0⟩ := create_valid (α := ℚ) kind 2 3 (by decide)
    obtain ⟨b1, hw1, hv1, hc1, hl1, hr1, -⟩ :=
      writeBlock_spec hv0 (i := 0) (by rw [hc0]; decide) [0.1, 0.2, 0.3] (by rw [hl0]; rfl)
    obtain ⟨b2, hw2, -, -, -, hr2, hf2⟩ :=
      writeBlock_spec hv1 (i := 1) (by rw [hc1, hc0]; decide) [-0.1, -0.2, -0.3]
        (by rw [hl1, hl0]; rfl)
    exact ⟨b0, b1, b2, hb0, hw1, hw2, hr1, (hf2 0 (by decide)).trans hr1, hr2⟩

/-- Instance of the preceding theorem at the plain two-channel buffer with blocks [1,2,3] and [4,5,6]:
writing [7,8,9] to channel 0 leaves channel 1 as it was. -/
theorem writeBlock_channel_independent_witness :
    (⟨2, 3, [.plain [1, 2, 3], .plain [4, 5, 6]]⟩ : AudioBuffer Nat).Valid ∧
    ∃ b2 : AudioBuffer Nat,
      (⟨2, 3, [.plain [1, 2, 3], .plain [4, 5, 6]]⟩ : AudioBuffer Nat).writeBlock 0 [7, 8, 9]
        = .ok b2 ∧
      b2.readBlock 1
        = (⟨2, 3, [.plain [1, 2, 3], .plain [4, 5, 6]]⟩ : AudioBuffer Nat).readBlock 1 ∧
      b2.readBlock 0 = .ok [7, 8, 9] :=
  have hv : (⟨2, 3, [.plain [1, 2, 3], .plain [4, 5, 6]]⟩ : AudioBuffer Nat).Valid :=
    ⟨rfl, fun s hs => by
      simp only [List.mem_cons, List.mem_singleton, List.not_mem_nil, or_false] at hs
      rcases hs with h | h <;> rw [h] <;> trivial⟩
  ⟨hv, writeBlock_channel_independent.1 Nat _ 0 1 [7, 8, 9] hv (by decide) (by decide)
    (by decide) rfl⟩

end AudioBuffer

end Microaudio
